import Mathlib

/-
Verification of the file-structure traversal engine (`src/iter.rs`).

The data model (`File`, `FileType`) and the seeding entry points live in the
crate root, outside the provided sources; they are modelled from the
specification (section 3 and section 6).  Everything about the traversal
itself (`FilesIter`, `PathsIter`) is a direct shallow embedding of
`src/iter.rs`.

The Rust `VecDeque` is modelled as a Lean `List` whose head is the deque's
front and whose last element is the deque's back:
`push_front` is cons, `push_back` appends a singleton, `pop_front` takes the
head, `pop_back` takes `getLast` and keeps `dropLast`.

`FilesIter::next` restarts itself after a filtered entry.  Each removal
strictly decreases the total number of tree nodes reachable from the work
list (`closureSize`), so that quantity is used as explicit structural fuel;
`FilesIter.next` runs the fueled recursion with exactly that bound, and the
development proves the bound suffices (`next_eq`, `run_eq`).
-/

namespace FileStructure

mutual

/-- Modelled from the spec: node kind, a closed sum
{Regular, Symlink, Directory(children)} where only `directory` carries the
ordered list of child nodes (spec section 3).  The type itself is defined in
the crate root, outside `src/`. -/
inductive FileType : Type where
  | regular : FileType
  | symlink : FileType
  | directory : List File → FileType

inductive File : Type where
  | mk : String → String → FileType → File

end

/-- Modelled from the spec: accessor for the entry's own name. -/
def File.name : File → String
  | .mk n _ _ => n

/-- Modelled from the spec: accessor for the precomputed path stored per node. -/
def File.path : File → String
  | .mk _ p _ => p

/-- Modelled from the spec: accessor for the node kind. -/
def File.file_type : File → FileType
  | .mk _ _ t => t

/-- Modelled from the spec: kind test used by the engine (`is_dir`). -/
def FileType.is_dir : FileType → Bool
  | .directory _ => true
  | _ => false

/-- Modelled from the spec: kind test used by the engine (`is_regular`). -/
def FileType.is_regular : FileType → Bool
  | .regular => true
  | _ => false

/-- Modelled from the spec: kind test (`is_symlink`). -/
def FileType.is_symlink : FileType → Bool
  | .symlink => true
  | _ => false

mutual

/-- Number of nodes of the tree rooted at a file (the node itself plus all
descendants).  Used as the termination measure of the traversal. -/
def File.size : File → Nat
  | .mk _ _ t => 1 + FileType.sizeOfChildren t

def FileType.sizeOfChildren : FileType → Nat
  | .regular => 0
  | .symlink => 0
  | .directory cs => File.sizeList cs

def File.sizeList : List File → Nat
  | [] => 0
  | c :: cs => File.size c + File.sizeList cs

end

mutual

/-- All `(node, depth)` pairs of the tree rooted at `f`, where `f` itself is
tagged `d` and each child is one deeper: the tree's nodes together with
their edge-distance from the root when `d = 0`. -/
def File.entries : Nat → File → List (File × Nat)
  | d, .mk n p t => (File.mk n p t, d) :: FileType.childEntries (d + 1) t

def FileType.childEntries : Nat → FileType → List (File × Nat)
  | _, .regular => []
  | _, .symlink => []
  | d, .directory cs => File.entriesList d cs

def File.entriesList : Nat → List File → List (File × Nat)
  | _, [] => []
  | d, c :: cs => File.entries d c ++ File.entriesList d cs

end

mutual

/-- All nodes of the tree rooted at `f`, in preorder. -/
def File.allNodes : File → List File
  | .mk n p t => File.mk n p t :: FileType.childNodes t

def FileType.childNodes : FileType → List File
  | .regular => []
  | .symlink => []
  | .directory cs => File.allNodesList cs

def File.allNodesList : List File → List File
  | [] => []
  | c :: cs => File.allNodes c ++ File.allNodesList cs

end

/-- Rust's `usize::MAX` on a 64-bit target, the default `max_depth`. -/
def usizeMAX : Nat := 2 ^ 64 - 1

/-- State of the traversal engine (`FilesIter` in `src/iter.rs`): the
double-ended work list of `(node, depth)` pairs plus the six configuration
options. -/
structure FilesIter where
  file_deque : List (File × Nat)
  files_before_directories : Bool
  skip_dirs : Bool
  skip_regular_files : Bool
  skip_symlinks : Bool
  min_depth : Nat
  max_depth : Nat

/-- Builder `FilesIter::files_before_directories` (named `with…` because the
Lean field projection already takes the source name). -/
def FilesIter.withFilesBeforeDirectories (it : FilesIter) (arg : Bool) : FilesIter :=
  { it with files_before_directories := arg }

/-- Builder `FilesIter::skip_dirs`. -/
def FilesIter.withSkipDirs (it : FilesIter) (arg : Bool) : FilesIter :=
  { it with skip_dirs := arg }

/-- Builder `FilesIter::skip_regular_files`. -/
def FilesIter.withSkipRegularFiles (it : FilesIter) (arg : Bool) : FilesIter :=
  { it with skip_regular_files := arg }

/-- Builder `FilesIter::skip_symlinks`. -/
def FilesIter.withSkipSymlinks (it : FilesIter) (arg : Bool) : FilesIter :=
  { it with skip_symlinks := arg }

/-- Builder `FilesIter::min_depth`. -/
def FilesIter.withMinDepth (it : FilesIter) (min : Nat) : FilesIter :=
  { it with min_depth := min }

/-- Builder `FilesIter::max_depth`. -/
def FilesIter.withMaxDepth (it : FilesIter) (max : Nat) : FilesIter :=
  { it with max_depth := max }

/-- The private `FilesIter::default`: empty work list, default order, no kind
filters, depth range `[0, usize::MAX]`. -/
def FilesIter.default : FilesIter :=
  { file_deque := []
    files_before_directories := false
    skip_dirs := false
    skip_regular_files := false
    skip_symlinks := false
    min_depth := 0
    max_depth := usizeMAX }

/-- Modelled from the spec: the entry point (`root.traverse()` in the spec,
`File::files` in the crate root, outside `src/`) produces a
default-configured engine whose work list is seeded with `(root, 0)`. -/
def File.files (root : File) : FilesIter :=
  { FilesIter.default with file_deque := [(root, 0)] }

/-- Engine seeded with `(root, 0)` carrying an explicit configuration; a
convenience constructor used to quantify claims over all configurations. -/
def seededIter (root : File) (fbd sd srf ss : Bool) (mn mx : Nat) : FilesIter :=
  { file_deque := [(root, 0)], files_before_directories := fbd, skip_dirs := sd,
    skip_regular_files := srf, skip_symlinks := ss, min_depth := mn, max_depth := mx }

/-- Expansion step of `FilesIter::next` (`src/iter.rs` lines 102-113): if the
popped node is a directory, iterate its children in reverse order, pushing
directory children at the back and other children at the front, each tagged
`depth + 1`; otherwise leave the work list unchanged. -/
def expandChildren (rest : List (File × Nat)) (depth : Nat) : FileType → List (File × Nat)
  | .directory children =>
      children.reverse.foldl
        (fun q child =>
          if child.file_type.is_dir then q ++ [(child, depth + 1)]
          else (child, depth + 1) :: q)
        rest
  | _ => rest

/-- Pop-and-expand prefix of `FilesIter::next` (`src/iter.rs` lines 78-113):
empty work list means exhaustion; otherwise inspect the back entry, pop from
the front if `files_before_directories` is set or the back entry is not a
directory, pop from the back otherwise, then expand the popped node's
children.  Returns the popped `(node, depth)` pair and the successor state. -/
def popExpand (it : FilesIter) : Option ((File × Nat) × FilesIter) :=
  match it.file_deque with
  | [] => none
  | e :: rest =>
    let back := (e :: rest).getLast (List.cons_ne_nil e rest)
    let pop_from_the_left := it.files_before_directories || !back.1.file_type.is_dir
    if pop_from_the_left then
      some (e, { it with file_deque := expandChildren rest e.2 e.1.file_type })
    else
      some (back,
        { it with file_deque := expandChildren ((e :: rest).dropLast) back.2 back.1.file_type })

/-- Fallible rendering of the same pop-and-expand prefix, with an explicit
error for each `unwrap` in the source: `back().unwrap()` (line 91) and
`pop_front()/pop_back().unwrap()` (lines 95-100).  `Except.error ()` is the
panic of an `unwrap` on `None`. -/
def popExpandE (it : FilesIter) : Except Unit (Option ((File × Nat) × FilesIter)) :=
  if it.file_deque.isEmpty then .ok none
  else
    match it.file_deque.getLast? with
    | none => .error ()
    | some back =>
      let pop_from_the_left := it.files_before_directories || !back.1.file_type.is_dir
      let popped : Option ((File × Nat) × List (File × Nat)) :=
        if pop_from_the_left then
          match it.file_deque with
          | [] => none
          | e :: rest => some (e, rest)
        else
          match it.file_deque.getLast? with
          | none => none
          | some e => some (e, it.file_deque.dropLast)
      match popped with
      | none => .error ()
      | some (entry, remaining) =>
        .ok (some (entry,
          { it with file_deque := expandChildren remaining entry.2 entry.1.file_type }))

/-- Depth filter of `FilesIter::next` (`src/iter.rs` line 116):
`self.min_depth > depth || self.max_depth < depth`. -/
def depthSkip (it : FilesIter) (depth : Nat) : Prop :=
  it.min_depth > depth ∨ it.max_depth < depth

instance (it : FilesIter) (depth : Nat) : Decidable (depthSkip it depth) :=
  inferInstanceAs (Decidable (_ ∨ _))

/-- Kind filter of `FilesIter::next` (`src/iter.rs` lines 121-124), including
the duplicated `skip_dirs && is_dir()` disjunct of the source; note that
`skip_symlinks` is never consulted. -/
def kindSkip (it : FilesIter) (file : File) : Bool :=
  it.skip_regular_files && file.file_type.is_regular
    || it.skip_dirs && file.file_type.is_dir
    || it.skip_dirs && file.file_type.is_dir

/-- Fueled body of `FilesIter::next`: pop and expand, then restart on a
depth-filtered or kind-filtered entry, otherwise yield the node.  The pair's
second component is the engine state after the call, mirroring `&mut self`. -/
def nextF : Nat → FilesIter → Option File × FilesIter
  | 0, it => (none, it)
  | fuel + 1, it =>
    match popExpand it with
    | none => (none, it)
    | some ((file, depth), it2) =>
      if depthSkip it depth then nextF fuel it2
      else if kindSkip it file then nextF fuel it2
      else (some file, it2)

/-- Total number of tree nodes reachable from the work list: the sum of the
subtree sizes of its entries.  Strictly decreases at every pop-and-expand. -/
def closureSize (it : FilesIter) : Nat :=
  (it.file_deque.map (fun e => e.1.size)).sum

/-- One pull of the traversal engine, `FilesIter::next`
(`src/iter.rs` lines 77-129): the fueled body run with fuel `closureSize it`,
which the development proves sufficient (`next_eq`). -/
def FilesIter.next (it : FilesIter) : Option File × FilesIter :=
  nextF (closureSize it) it

/-- Fueled exhaustive run of the engine: the list of all nodes the engine
yields from a given state, in order. -/
def runF : Nat → FilesIter → List File
  | 0, _ => []
  | fuel + 1, it =>
    match popExpand it with
    | none => []
    | some ((file, depth), it2) =>
      if depthSkip it depth then runF fuel it2
      else if kindSkip it file then runF fuel it2
      else file :: runF fuel it2

/-- The complete output sequence of the engine from a given state. -/
def run (it : FilesIter) : List File :=
  runF (closureSize it) it

/-- Engine state after `n` pulls. -/
def pullN : Nat → FilesIter → FilesIter
  | 0, it => it
  | n + 1, it => pullN n (it.next).2

/-- Fallible rendering of the fueled `FilesIter::next` body, propagating the
potential `unwrap` panics of `popExpandE`. -/
def nextFE : Nat → FilesIter → Except Unit (Option File × FilesIter)
  | 0, it => .ok (none, it)
  | fuel + 1, it =>
    match popExpandE it with
    | .error e => .error e
    | .ok none => .ok (none, it)
    | .ok (some ((file, depth), it2)) =>
      if depthSkip it depth then nextFE fuel it2
      else if kindSkip it file then nextFE fuel it2
      else .ok (some file, it2)

/-- State of the path projection (`PathsIter` in `src/iter.rs`): the wrapped
engine, the never-read `current_path` accumulator, and the
`show_full_relative_path` flag (default true). -/
structure PathsIter where
  current_path : String
  file_iter : FilesIter
  show_full_relative_path : Bool

/-- `FilesIter::paths` (`src/iter.rs` lines 20-26): wrap the engine with an
empty accumulator and `show_full_relative_path = true`. -/
def FilesIter.paths (it : FilesIter) : PathsIter :=
  { current_path := "", file_iter := it, show_full_relative_path := true }

/-- Builder `PathsIter::show_full_relative_path`. -/
def PathsIter.withShowFullRelativePath (p : PathsIter) (arg : Bool) : PathsIter :=
  { p with show_full_relative_path := arg }

/-- One pull of the path projection, `PathsIter::next`
(`src/iter.rs` lines 151-160): pull a node from the wrapped engine
(advancing it); on exhaustion yield nothing; otherwise yield the node's
stored path if `show_full_relative_path` is set and nothing if it is not. -/
def PathsIter.next (p : PathsIter) : Option String × PathsIter :=
  match p.file_iter.next with
  | (none, it2) => (none, { p with file_iter := it2 })
  | (some file, it2) =>
    if p.show_full_relative_path then (some file.path, { p with file_iter := it2 })
    else (none, { p with file_iter := it2 })

/-- Fueled exhaustive run of the path projection (stops at the first pull
that yields nothing). -/
def pathsRunF : Nat → PathsIter → List String
  | 0, _ => []
  | fuel + 1, p =>
    match p.next with
    | (none, _) => []
    | (some s, p2) => s :: pathsRunF fuel p2

/-- The complete output sequence of the path projection from a given state. -/
def pathsRun (p : PathsIter) : List String :=
  pathsRunF (closureSize p.file_iter) p

/-- Projection state after `n` pulls. -/
def pathsPullN : Nat → PathsIter → PathsIter
  | 0, p => p
  | n + 1, p => pathsPullN n (p.next).2

/-- Work-list shape invariant: every non-directory entry precedes every
directory entry (files at the front, directories at the back). -/
def partitioned : List (File × Nat) → Bool
  | [] => true
  | e :: rest =>
    if e.1.file_type.is_dir then rest.all (fun x => x.1.file_type.is_dir)
    else partitioned rest

/-- Emission predicate of a configuration: an entry popped with this
configuration is yielded exactly when neither the depth filter nor the kind
filter discards it. -/
def emits (it : FilesIter) (e : File × Nat) : Bool :=
  !decide (depthSkip it e.2) && !kindSkip it e.1

/-- All `(node, depth)` pairs reachable from a work list: each entry together
with its whole subtree, at the depths the engine would assign. -/
def closureList (q : List (File × Nat)) : List (File × Nat) :=
  q.flatMap (fun e => File.entries e.2 e.1)

/-- Canonical fixture of the repository's test
(`testing_files_and_paths_iters`, `src/iter.rs` lines 193-206). -/
def innerfile1 : File := .mk "innerfile1" ".config/i3/dir/innerfile1" .regular

def innerfile2 : File := .mk "innerfile2" ".config/i3/dir/innerfile2" .regular

def dir : File := .mk "dir" ".config/i3/dir" (.directory [innerfile1, innerfile2])

def file1 : File := .mk "file1" ".config/i3/file1" .regular

def file2 : File := .mk "file2" ".config/i3/file2" .regular

def file3 : File := .mk "file3" ".config/i3/file3" .regular

def i3 : File := .mk "i3" ".config/i3" (.directory [file1, file2, dir, file3])

def outerfile1 : File := .mk "outerfile1" ".config/outerfile1" .regular

def outerfile2 : File := .mk "outerfile2" ".config/outerfile2" .regular

def dotConfig : File := .mk ".config" ".config" (.directory [i3, outerfile1, outerfile2])

/-- A tree consisting of a single symlink node, the smallest input showing
that the `skip_symlinks` option is never consulted by the kind filter. -/
def loneSymlink : File := .mk "link" "link" .symlink

/-- Path projection over the fixture with `show_full_relative_path` disabled. -/
def hiddenPathsIter : PathsIter :=
  (File.files dotConfig).paths.withShowFullRelativePath false

theorem File.size_pos (f : File) : 1 ≤ f.size := by
  cases f with
  | mk n p t => simp [File.size]

theorem File.entries_def (d : Nat) (f : File) :
    File.entries d f = (f, d) :: FileType.childEntries (d + 1) f.file_type := by
  cases f with
  | mk n p t => rfl

theorem popExpand_none_iff (it : FilesIter) : popExpand it = none ↔ it.file_deque = [] := by
  cases h : it.file_deque with
  | nil => simp [popExpand, h]
  | cons e rest =>
    simp only [popExpand, h]
    constructor
    · intro hcontra
      split at hcontra <;> simp at hcontra
    · intro hcontra
      simp at hcontra

theorem popExpand_shape {it : FilesIter} {e : File × Nat} {it2 : FilesIter}
    (h : popExpand it = some (e, it2)) :
    it2 = { it with file_deque := it2.file_deque } := by
  cases hd : it.file_deque with
  | nil => simp [popExpand, hd] at h
  | cons a rest =>
    simp only [popExpand, hd] at h
    split at h
    · obtain ⟨h1, h2⟩ := Prod.mk.inj (Option.some.inj h)
      rw [← h2]
    · obtain ⟨h1, h2⟩ := Prod.mk.inj (Option.some.inj h)
      rw [← h2]

theorem depthSkip_congr {it it2 : FilesIter}
    (h : it2 = { it with file_deque := it2.file_deque }) (d : Nat) :
    depthSkip it2 d ↔ depthSkip it d := by
  rw [h]; rfl

theorem kindSkip_congr {it it2 : FilesIter}
    (h : it2 = { it with file_deque := it2.file_deque }) (f : File) :
    kindSkip it2 f = kindSkip it f := by
  rw [h]; rfl

theorem emits_congr {it it2 : FilesIter}
    (h : it2 = { it with file_deque := it2.file_deque }) :
    emits it2 = emits it := by
  funext e
  rw [h]; rfl

theorem closureList_nil : closureList [] = [] := rfl

theorem closureList_cons (e : File × Nat) (q : List (File × Nat)) :
    closureList (e :: q) = File.entries e.2 e.1 ++ closureList q := by
  simp [closureList]

theorem closureList_append (a b : List (File × Nat)) :
    closureList (a ++ b) = closureList a ++ closureList b := by
  simp [closureList]

theorem closureList_map_tag (k : Nat) (xs : List File) :
    closureList (xs.map (fun c => (c, k))) = File.entriesList k xs := by
  induction xs with
  | nil => rfl
  | cons c cs ih => simp [closureList, File.entriesList] at ih ⊢; rw [ih]

theorem entriesList_perm (k : Nat) {xs ys : List File} (h : xs.Perm ys) :
    (File.entriesList k xs).Perm (File.entriesList k ys) := by
  rw [← closureList_map_tag, ← closureList_map_tag]
  exact List.Perm.flatMap_right _ (h.map _)

theorem expandChildren_directory (rest : List (File × Nat)) (d : Nat) (cs : List File) :
    expandChildren rest d (.directory cs)
      = (cs.filter (fun c => !c.file_type.is_dir)).map (fun c => (c, d + 1))
        ++ rest
        ++ ((cs.filter (fun c => c.file_type.is_dir)).map (fun c => (c, d + 1))).reverse := by
  induction cs with
  | nil => simp [expandChildren]
  | cons c cs ih =>
    show ((c :: cs).reverse.foldl _ rest) = _
    rw [List.reverse_cons, List.foldl_append, List.foldl_cons, List.foldl_nil]
    have ihfold : (cs.reverse.foldl
        (fun q child =>
          if child.file_type.is_dir then q ++ [(child, d + 1)]
          else (child, d + 1) :: q) rest)
        = (cs.filter (fun c => !c.file_type.is_dir)).map (fun c => (c, d + 1))
          ++ rest
          ++ ((cs.filter (fun c => c.file_type.is_dir)).map (fun c => (c, d + 1))).reverse := ih
    rw [ihfold]
    cases hc : c.file_type.is_dir with
    | true => simp [hc, List.filter_cons]
    | false => simp [hc, List.filter_cons]

theorem closure_expandChildren (rest : List (File × Nat)) (d : Nat) (t : FileType) :
    (closureList (expandChildren rest d t)).Perm
      (FileType.childEntries (d + 1) t ++ closureList rest) := by
  cases t with
  | regular => simp [expandChildren, FileType.childEntries]
  | symlink => simp [expandChildren, FileType.childEntries]
  | directory cs =>
    rw [expandChildren_directory, closureList_append, closureList_append]
    rw [closureList_map_tag]
    have hrev : ((cs.filter (fun c => c.file_type.is_dir)).map (fun c => (c, d + 1))).reverse
        = ((cs.filter (fun c => c.file_type.is_dir)).reverse.map (fun c => (c, d + 1))) := by
      rw [List.map_reverse]
    rw [hrev, closureList_map_tag]
    show (File.entriesList (d + 1) (cs.filter fun c => !c.file_type.is_dir) ++ closureList rest
        ++ File.entriesList (d + 1) (cs.filter fun c => c.file_type.is_dir).reverse).Perm
      (File.entriesList (d + 1) cs ++ closureList rest)
    have hcs : ((cs.filter fun c => !c.file_type.is_dir)
          ++ (cs.filter fun c => c.file_type.is_dir).reverse).Perm cs := by
      have h1 : ((cs.filter fun c => c.file_type.is_dir).reverse).Perm
          (cs.filter fun c => c.file_type.is_dir) := List.reverse_perm _
      have h2 : ((cs.filter fun c => !c.file_type.is_dir)
            ++ (cs.filter fun c => c.file_type.is_dir).reverse).Perm
          ((cs.filter fun c => c.file_type.is_dir)
            ++ (cs.filter fun c => !c.file_type.is_dir)) :=
        ((List.Perm.refl _).append h1).trans List.perm_append_comm
      exact h2.trans (List.filter_append_perm _ cs)
    have step1 : (File.entriesList (d + 1) (cs.filter fun c => !c.file_type.is_dir)
          ++ closureList rest
          ++ File.entriesList (d + 1) (cs.filter fun c => c.file_type.is_dir).reverse).Perm
        (File.entriesList (d + 1) (cs.filter fun c => !c.file_type.is_dir)
          ++ File.entriesList (d + 1) (cs.filter fun c => c.file_type.is_dir).reverse
          ++ closureList rest) := by
      rw [List.append_assoc, List.append_assoc]
      exact (List.Perm.refl _).append List.perm_append_comm
    have step2 : (File.entriesList (d + 1) (cs.filter fun c => !c.file_type.is_dir)
          ++ File.entriesList (d + 1) (cs.filter fun c => c.file_type.is_dir).reverse
          ++ closureList rest)
        = (File.entriesList (d + 1)
            ((cs.filter fun c => !c.file_type.is_dir)
              ++ (cs.filter fun c => c.file_type.is_dir).reverse)) ++ closureList rest := by
      rw [← closureList_map_tag, ← closureList_map_tag, ← closureList_map_tag,
        ← closureList_append, List.map_append]
    have step3 : ((File.entriesList (d + 1)
          ((cs.filter fun c => !c.file_type.is_dir)
            ++ (cs.filter fun c => c.file_type.is_dir).reverse)) ++ closureList rest).Perm
        (File.entriesList (d + 1) cs ++ closureList rest) :=
      (entriesList_perm _ hcs).append (List.Perm.refl _)
    exact step1.trans (step2 ▸ step3)

theorem popExpand_closure {it : FilesIter} {e : File × Nat} {it2 : FilesIter}
    (h : popExpand it = some (e, it2)) :
    (closureList it.file_deque).Perm (e :: closureList it2.file_deque) := by
  cases hd : it.file_deque with
  | nil => simp [popExpand, hd] at h
  | cons a rest =>
    simp only [popExpand, hd] at h
    split at h
    · obtain ⟨he, h2⟩ := Prod.mk.inj (Option.some.inj h)
      have hq : it2.file_deque = expandChildren rest a.2 a.1.file_type := by
        rw [← h2]
      rw [← he, hq, closureList_cons, File.entries_def]
      simp only [Prod.mk.eta]
      rw [List.cons_append]
      exact List.Perm.cons a (closure_expandChildren rest a.2 a.1.file_type).symm
    · obtain ⟨he, h2⟩ := Prod.mk.inj (Option.some.inj h)
      have hq : it2.file_deque = expandChildren ((a :: rest).dropLast)
          ((a :: rest).getLast (List.cons_ne_nil a rest)).2
          ((a :: rest).getLast (List.cons_ne_nil a rest)).1.file_type := by
        rw [← h2]
      set q : List (File × Nat) := a :: rest with hqdef
      set back := q.getLast (List.cons_ne_nil a rest) with hback
      have hsplit : q.dropLast ++ [back] = q := List.dropLast_append_getLast _
      have h1 : closureList q = closureList q.dropLast ++ (back :: FileType.childEntries
          (back.2 + 1) back.1.file_type) := by
        conv_lhs => rw [← hsplit]
        rw [closureList_append, closureList_cons, closureList_nil, File.entries_def,
          List.append_nil, Prod.mk.eta]
      have h2 : (closureList q.dropLast ++ (back :: FileType.childEntries
          (back.2 + 1) back.1.file_type)).Perm
          (back :: (closureList q.dropLast ++ FileType.childEntries
            (back.2 + 1) back.1.file_type)) := List.perm_middle
      have h3 : (closureList q.dropLast ++ FileType.childEntries
          (back.2 + 1) back.1.file_type).Perm (closureList it2.file_deque) := by
        rw [hq]
        exact List.perm_append_comm.trans (closure_expandChildren _ _ _).symm
      rw [← he]
      exact (h1 ▸ h2).trans (h3.cons back)

mutual

theorem File.entries_length (d : Nat) (f : File) : (File.entries d f).length = f.size := by
  cases f with
  | mk n p t =>
    simp [File.entries, File.size, FileType.childEntries_length (d + 1) t, Nat.add_comm]

theorem FileType.childEntries_length (d : Nat) (t : FileType) :
    (FileType.childEntries d t).length = FileType.sizeOfChildren t := by
  cases t with
  | regular => rfl
  | symlink => rfl
  | directory cs =>
    simp [FileType.childEntries, FileType.sizeOfChildren, File.entriesList_length d cs]

theorem File.entriesList_length (d : Nat) (cs : List File) :
    (File.entriesList d cs).length = File.sizeList cs := by
  cases cs with
  | nil => rfl
  | cons c cs =>
    simp [File.entriesList, File.sizeList, File.entries_length d c,
      File.entriesList_length d cs]

end

theorem closureList_length (q : List (File × Nat)) :
    (closureList q).length = (q.map (fun e => e.1.size)).sum := by
  induction q with
  | nil => rfl
  | cons e q ih => simp [closureList_cons, File.entries_length, ih]

theorem closureSize_eq (it : FilesIter) :
    closureSize it = (closureList it.file_deque).length := by
  rw [closureSize, closureList_length]

theorem popExpand_closureSize {it : FilesIter} {e : File × Nat} {it2 : FilesIter}
    (h : popExpand it = some (e, it2)) : closureSize it = closureSize it2 + 1 := by
  have hl := (popExpand_closure h).length_eq
  rw [closureSize_eq, closureSize_eq, hl, List.length_cons]

theorem closureSize_eq_zero {it : FilesIter} : closureSize it = 0 ↔ it.file_deque = [] := by
  cases hd : it.file_deque with
  | nil => simp [closureSize, hd]
  | cons a rest =>
    simp only [closureSize, hd, List.map_cons, List.sum_cons]
    constructor
    · intro h
      have := File.size_pos a.1
      omega
    · intro h
      exact absurd h (List.cons_ne_nil a rest)

theorem run_eq (it : FilesIter) :
    run it = match popExpand it with
      | none => []
      | some ((file, depth), it2) =>
        if depthSkip it depth then run it2
        else if kindSkip it file then run it2
        else file :: run it2 := by
  cases h : popExpand it with
  | none =>
    have hd : it.file_deque = [] := (popExpand_none_iff it).mp h
    have h0 : closureSize it = 0 := closureSize_eq_zero.mpr hd
    simp [run, h0, runF]
  | some pr =>
    obtain ⟨⟨file, depth⟩, it2⟩ := pr
    have hsz := popExpand_closureSize h
    show runF (closureSize it) it = _
    rw [hsz]
    simp only [runF, h]
    rfl

theorem next_eq (it : FilesIter) :
    it.next = match popExpand it with
      | none => (none, it)
      | some ((file, depth), it2) =>
        if depthSkip it depth then it2.next
        else if kindSkip it file then it2.next
        else (some file, it2) := by
  cases h : popExpand it with
  | none =>
    have hd : it.file_deque = [] := (popExpand_none_iff it).mp h
    have h0 : closureSize it = 0 := closureSize_eq_zero.mpr hd
    simp [FilesIter.next, h0, nextF, h]
  | some pr =>
    obtain ⟨⟨file, depth⟩, it2⟩ := pr
    have hsz := popExpand_closureSize h
    show nextF (closureSize it) it = _
    rw [hsz]
    simp only [nextF, h]
    rfl

theorem run_eq_none {it : FilesIter} (h : popExpand it = none) : run it = [] := by
  rw [run_eq, h]

theorem run_eq_some {it it2 : FilesIter} {file : File} {depth : Nat}
    (h : popExpand it = some ((file, depth), it2)) :
    run it = if depthSkip it depth then run it2
      else if kindSkip it file then run it2 else file :: run it2 := by
  rw [run_eq, h]

theorem next_eq_none {it : FilesIter} (h : popExpand it = none) : it.next = (none, it) := by
  rw [next_eq, h]

theorem next_eq_some {it it2 : FilesIter} {file : File} {depth : Nat}
    (h : popExpand it = some ((file, depth), it2)) :
    it.next = if depthSkip it depth then it2.next
      else if kindSkip it file then it2.next else (some file, it2) := by
  rw [next_eq, h]

theorem next_none_of_empty {it : FilesIter} (hd : it.file_deque = []) :
    it.next = (none, it) :=
  next_eq_none ((popExpand_none_iff it).mpr hd)

theorem run_perm_aux : ∀ n it, closureSize it = n →
    (run it).Perm (((closureList it.file_deque).filter (emits it)).map Prod.fst) := by
  intro n
  induction n using Nat.strong_induction_on with
  | _ n ih =>
    intro it hn
    cases h : popExpand it with
    | none =>
      have hd := (popExpand_none_iff it).mp h
      rw [run_eq_none h, hd]
      simp [closureList_nil]
    | some pr =>
      obtain ⟨⟨file, depth⟩, it2⟩ := pr
      have hsz := popExpand_closureSize h
      have hshape := popExpand_shape h
      have hperm := popExpand_closure h
      have hIH : (run it2).Perm
          (((closureList it2.file_deque).filter (emits it2)).map Prod.fst) :=
        ih (closureSize it2) (by omega) it2 rfl
      rw [emits_congr hshape] at hIH
      have hfilter : ((closureList it.file_deque).filter (emits it)).Perm
          (((file, depth) :: closureList it2.file_deque).filter (emits it)) :=
        hperm.filter _
      rw [run_eq_some h]
      by_cases hds : depthSkip it depth
      · rw [if_pos hds]
        have hem : emits it (file, depth) = false := by
          simp [emits, hds]
        rw [List.filter_cons, hem] at hfilter
        simp only [Bool.false_eq_true, if_false] at hfilter
        exact hIH.trans ((hfilter.map Prod.fst).symm)
      · rw [if_neg hds]
        by_cases hks : kindSkip it file = true
        · rw [if_pos hks]
          have hem : emits it (file, depth) = false := by
            simp [emits, hks]
          rw [List.filter_cons, hem] at hfilter
          simp only [Bool.false_eq_true, if_false] at hfilter
          exact hIH.trans ((hfilter.map Prod.fst).symm)
        · rw [if_neg hks]
          have hem : emits it (file, depth) = true := by
            simp [emits, hds, hks]
          rw [List.filter_cons, hem] at hfilter
          simp only [if_true] at hfilter
          have hmap : (((closureList it.file_deque).filter (emits it)).map Prod.fst).Perm
              (file :: ((closureList it2.file_deque).filter (emits it)).map Prod.fst) := by
            have := hfilter.map Prod.fst
            simpa using this
          exact ((hIH.cons file).trans (hmap.symm))

theorem run_perm (it : FilesIter) :
    (run it).Perm (((closureList it.file_deque).filter (emits it)).map Prod.fst) :=
  run_perm_aux (closureSize it) it rfl

mutual

theorem File.entries_map_fst (d : Nat) (f : File) :
    (File.entries d f).map Prod.fst = File.allNodes f := by
  cases f with
  | mk n p t =>
    simp [File.entries, File.allNodes, FileType.childEntries_map_fst (d + 1) t]

theorem FileType.childEntries_map_fst (d : Nat) (t : FileType) :
    (FileType.childEntries d t).map Prod.fst = FileType.childNodes t := by
  cases t with
  | regular => rfl
  | symlink => rfl
  | directory cs =>
    simp [FileType.childEntries, FileType.childNodes, File.entriesList_map_fst d cs]

theorem File.entriesList_map_fst (d : Nat) (cs : List File) :
    (File.entriesList d cs).map Prod.fst = File.allNodesList cs := by
  cases cs with
  | nil => rfl
  | cons c cs =>
    simp [File.entriesList, File.allNodesList, File.entries_map_fst d c,
      File.entriesList_map_fst d cs]

end

mutual

theorem File.entries_depth (d : Nat) (f : File) :
    ∀ e ∈ File.entries d f, d ≤ e.2 ∧ e.2 < d + f.size := by
  cases f with
  | mk n p t =>
    intro e he
    have hs : (File.mk n p t).size = 1 + FileType.sizeOfChildren t := rfl
    rcases List.mem_cons.mp he with h | h
    · subst h
      rw [hs]
      omega
    · have hrec := FileType.childEntries_depth (d + 1) t e h
      rw [hs]
      omega

theorem FileType.childEntries_depth (d : Nat) (t : FileType) :
    ∀ e ∈ FileType.childEntries d t, d ≤ e.2 ∧ e.2 < d + FileType.sizeOfChildren t := by
  cases t with
  | regular => intro e he; simp [FileType.childEntries] at he
  | symlink => intro e he; simp [FileType.childEntries] at he
  | directory cs =>
    intro e he
    exact File.entriesList_depth d cs e he

theorem File.entriesList_depth (d : Nat) (cs : List File) :
    ∀ e ∈ File.entriesList d cs, d ≤ e.2 ∧ e.2 < d + File.sizeList cs := by
  cases cs with
  | nil => intro e he; simp [File.entriesList] at he
  | cons c cs =>
    intro e he
    have hsz : File.sizeList (c :: cs) = c.size + File.sizeList cs := rfl
    rcases List.mem_append.mp he with h | h
    · have hrec := File.entries_depth d c e h
      rw [hsz]
      omega
    · have hrec := File.entriesList_depth d cs e h
      rw [hsz]
      omega

end

/-- C1: for every finite tree, the engine seeded with `(root, 0)` under the
default configuration (no kind filters, `min_depth = 0`, default
`max_depth = usize::MAX`, either order mode) produces every node of the tree
exactly once: the output is a permutation of the tree's node list.  The size
hypothesis says the tree fits a 64-bit machine, so the default `max_depth`
is effectively unbounded. -/
theorem c1_every_node_once (root : File) (fbd : Bool)
    (hsize : root.size ≤ usizeMAX) :
    (run ((File.files root).withFilesBeforeDirectories fbd)).Perm root.allNodes := by
  have hrp := run_perm ((File.files root).withFilesBeforeDirectories fbd)
  set it := (File.files root).withFilesBeforeDirectories fbd with hit
  have hcl : closureList it.file_deque = File.entries 0 root := by
    show closureList [(root, 0)] = File.entries 0 root
    simp [closureList]
  have hall : ∀ e ∈ closureList it.file_deque, emits it e = true := by
    intro e he
    rw [hcl] at he
    have hb := File.entries_depth 0 root e he
    have hmin : it.min_depth = 0 := rfl
    have hmax : it.max_depth = usizeMAX := rfl
    have hsrf : it.skip_regular_files = false := rfl
    have hsd : it.skip_dirs = false := rfl
    simp [emits, depthSkip, kindSkip, hmin, hmax, hsrf, hsd]
    omega
  rw [List.filter_eq_self.mpr hall, hcl, File.entries_map_fst] at hrp
  exact hrp

/-- C1 witness: the canonical fixture tree has all ten of its nodes produced
exactly once by the default-configured traversal. -/
theorem c1_every_node_once_witness :
    dotConfig.size ≤ usizeMAX ∧
      (run ((File.files dotConfig).withFilesBeforeDirectories false)).Perm
        dotConfig.allNodes :=
  ⟨by decide, c1_every_node_once dotConfig false (by decide)⟩

/-- C4: with `min_depth = a` and `max_depth = b` and no kind filters, in
either order mode, the engine produces exactly the nodes whose edge-distance
from the root lies in `[a, b]`, inclusive at both ends (as a multiset):
the output is a permutation of the depth-filtered node list of the tree. -/
theorem c4_depth_bounding (root : File) (fbd : Bool) (a b : Nat) :
    (run (((File.files root).withFilesBeforeDirectories fbd).withMinDepth a
        |>.withMaxDepth b)).Perm
      (((File.entries 0 root).filter
        (fun e => decide (a ≤ e.2) && decide (e.2 ≤ b))).map Prod.fst) := by
  have hrp := run_perm (((File.files root).withFilesBeforeDirectories fbd).withMinDepth a
    |>.withMaxDepth b)
  set it := ((File.files root).withFilesBeforeDirectories fbd).withMinDepth a
    |>.withMaxDepth b with hit
  have hcl : closureList it.file_deque = File.entries 0 root := by
    show closureList [(root, 0)] = File.entries 0 root
    simp [closureList]
  have hpred : emits it = fun e => decide (a ≤ e.2) && decide (e.2 ≤ b) := by
    funext e
    have hmin : it.min_depth = a := rfl
    have hmax : it.max_depth = b := rfl
    have hsrf : it.skip_regular_files = false := rfl
    have hsd : it.skip_dirs = false := rfl
    simp only [emits, depthSkip, kindSkip, hmin, hmax, hsrf, hsd]
    by_cases h1 : a ≤ e.2 <;> by_cases h2 : e.2 ≤ b
    all_goals simp [h1, h2]
    all_goals omega
  rw [hpred, hcl] at hrp
  exact hrp

/-- C5: for a fixed tree and fixed kind filters and depth bounds, the output
with `files_before_directories = true` is a permutation of the output with
it disabled; in particular the two outputs have the same members, the order
mode never changes which nodes are produced. -/
theorem c5_order_mode_invariance (root : File) (sd srf ss : Bool) (a b : Nat) :
    (run (seededIter root true sd srf ss a b)).Perm
      (run (seededIter root false sd srf ss a b))
    ∧ ∀ x, (x ∈ run (seededIter root true sd srf ss a b)
      ↔ x ∈ run (seededIter root false sd srf ss a b)) := by
  have hemits : emits (seededIter root true sd srf ss a b)
      = emits (seededIter root false sd srf ss a b) := by
    funext e
    rfl
  have hperm : (run (seededIter root true sd srf ss a b)).Perm
      (run (seededIter root false sd srf ss a b)) := by
    have h1 := run_perm (seededIter root true sd srf ss a b)
    have h2 := run_perm (seededIter root false sd srf ss a b)
    rw [hemits] at h1
    exact h1.trans h2.symm
  exact ⟨hperm, fun x => hperm.mem_iff⟩

theorem run_length_le (it : FilesIter) : (run it).length ≤ closureSize it := by
  have h := (run_perm it).length_eq
  rw [h, List.length_map, closureSize_eq]
  exact List.length_filter_le _ _

theorem next_state_decrease : ∀ n it, closureSize it = n → it.file_deque ≠ [] →
    closureSize (it.next).2 < closureSize it := by
  intro n
  induction n using Nat.strong_induction_on with
  | _ n ih =>
    intro it hn hd
    cases h : popExpand it with
    | none => exact absurd ((popExpand_none_iff it).mp h) hd
    | some pr =>
      obtain ⟨⟨file, depth⟩, it2⟩ := pr
      have hsz := popExpand_closureSize h
      rw [next_eq_some h]
      have hrec : closureSize (it2.next).2 < closureSize it := by
        by_cases hd2 : it2.file_deque = []
        · rw [next_none_of_empty hd2]
          show closureSize it2 < closureSize it
          omega
        · have := ih (closureSize it2) (by omega) it2 rfl hd2
          omega
      by_cases hds : depthSkip it depth
      · rw [if_pos hds]
        exact hrec
      · rw [if_neg hds]
        by_cases hks : kindSkip it file = true
        · rw [if_pos hks]
          exact hrec
        · rw [if_neg hks]
          show closureSize it2 < closureSize it
          omega

theorem next_some_closureSize {it : FilesIter} {f : File} {it2 : FilesIter}
    (h : it.next = (some f, it2)) : closureSize it2 < closureSize it := by
  by_cases hd : it.file_deque = []
  · rw [next_none_of_empty hd] at h
    exact absurd (congrArg Prod.fst h) (by simp)
  · have hlt := next_state_decrease (closureSize it) it rfl hd
    rw [h] at hlt
    exact hlt

theorem run_next : ∀ n it, closureSize it = n →
    run it = match it.next with
      | (none, _) => []
      | (some f, it2) => f :: run it2 := by
  intro n
  induction n using Nat.strong_induction_on with
  | _ n ih =>
    intro it hn
    cases h : popExpand it with
    | none =>
      rw [run_eq_none h, next_eq_none h]
    | some pr =>
      obtain ⟨⟨file, depth⟩, it2⟩ := pr
      have hsz := popExpand_closureSize h
      rw [run_eq_some h, next_eq_some h]
      by_cases hds : depthSkip it depth
      · rw [if_pos hds, if_pos hds]
        exact ih (closureSize it2) (by omega) it2 rfl
      · rw [if_neg hds, if_neg hds]
        by_cases hks : kindSkip it file = true
        · rw [if_pos hks, if_pos hks]
          exact ih (closureSize it2) (by omega) it2 rfl
        · rw [if_neg hks, if_neg hks]

theorem pullN_empty_stable {it : FilesIter} (hd : it.file_deque = []) :
    ∀ m, pullN m it = it := by
  intro m
  induction m with
  | zero => rfl
  | succ m ih =>
    show pullN m (it.next).2 = it
    rw [next_none_of_empty hd]
    exact ih

theorem pullN_exhausts : ∀ n it, closureSize it = n →
    ∃ k, k ≤ closureSize it ∧ (pullN k it).file_deque = []
      ∧ ∀ m, k ≤ m → ((pullN m it).next).1 = none := by
  intro n
  induction n using Nat.strong_induction_on with
  | _ n ih =>
    intro it hn
    by_cases hd : it.file_deque = []
    · refine ⟨0, Nat.zero_le _, hd, ?_⟩
      intro m _
      rw [pullN_empty_stable hd m, next_none_of_empty hd]
    · have hlt := next_state_decrease n it hn hd
      obtain ⟨k, hk1, hk2, hk3⟩ := ih (closureSize (it.next).2) (by omega) (it.next).2 rfl
      refine ⟨k + 1, by omega, hk2, ?_⟩
      intro m hm
      cases m with
      | zero => omega
      | succ m2 =>
        show ((pullN m2 (it.next).2).next).1 = none
        exact hk3 m2 (by omega)

theorem nextF_irrel : ∀ n fuel it, closureSize it = n → n ≤ fuel →
    nextF fuel it = it.next := by
  intro n
  induction n using Nat.strong_induction_on with
  | _ n ih =>
    intro fuel it hn hle
    cases h : popExpand it with
    | none =>
      have hd := (popExpand_none_iff it).mp h
      have h0 : closureSize it = 0 := closureSize_eq_zero.mpr hd
      rw [next_eq_none h]
      cases fuel with
      | zero => rfl
      | succ fuel2 =>
        show (match popExpand it with
          | none => (none, it)
          | some ((file, depth), it2) =>
            if depthSkip it depth then nextF fuel2 it2
            else if kindSkip it file then nextF fuel2 it2
            else (some file, it2)) = _
        rw [h]
    | some pr =>
      obtain ⟨⟨file, depth⟩, it2⟩ := pr
      have hsz := popExpand_closureSize h
      cases fuel with
      | zero => omega
      | succ fuel2 =>
        have hstep : nextF (fuel2 + 1) it = (if depthSkip it depth then nextF fuel2 it2
            else if kindSkip it file then nextF fuel2 it2 else (some file, it2)) := by
          show (match popExpand it with
            | none => (none, it)
            | some ((file, depth), it2) =>
              if depthSkip it depth then nextF fuel2 it2
              else if kindSkip it file then nextF fuel2 it2
              else (some file, it2)) = _
          rw [h]
        have hrec : nextF fuel2 it2 = it2.next :=
          ih (closureSize it2) (by omega) fuel2 it2 rfl (by omega)
        rw [hstep, next_eq_some h, hrec]

/-- C9: the traversal always terminates.  Every pop-and-expand strictly
decreases the reachable-node count `closureSize`; a single pull's internal
restarts are therefore bounded by tree size, so any fuel of at least
`closureSize` computes the pull; the complete output is no longer than
`closureSize`; and after at most `closureSize` pulls the work list is empty
and every later pull signals exhaustion. -/
theorem c9_termination (it : FilesIter) :
    (∀ e it2, popExpand it = some (e, it2) → closureSize it2 < closureSize it)
    ∧ (∀ fuel, closureSize it ≤ fuel → nextF fuel it = it.next)
    ∧ (run it).length ≤ closureSize it
    ∧ ∃ k, k ≤ closureSize it ∧ (pullN k it).file_deque = []
        ∧ ∀ m, k ≤ m → ((pullN m it).next).1 = none := by
  refine ⟨?_, ?_, run_length_le it, pullN_exhausts (closureSize it) it rfl⟩
  · intro e it2 h
    have := popExpand_closureSize h
    omega
  · intro fuel hle
    exact nextF_irrel (closureSize it) fuel it rfl hle

/-- C9 witness: on the canonical ten-node fixture, the output fits in ten
pulls and the eleventh pull (and any later one) signals exhaustion. -/
theorem c9_termination_witness :
    nextF 10 (File.files dotConfig) = (File.files dotConfig).next
    ∧ (run (File.files dotConfig)).length ≤ closureSize (File.files dotConfig)
    ∧ ((pullN 10 (File.files dotConfig)).next).1 = none := by
  obtain ⟨h1, h2, h3, k, hk1, hk2, hk3⟩ := c9_termination (File.files dotConfig)
  have hcs : closureSize (File.files dotConfig) = 10 := by decide
  refine ⟨h2 10 (by omega), h3, hk3 10 (by omega)⟩

theorem partitioned_of_all_dir :
    ∀ b : List (File × Nat), (∀ e ∈ b, e.1.file_type.is_dir = true) →
      partitioned b = true := by
  intro b
  induction b with
  | nil => intro _; rfl
  | cons e q ih =>
    intro h
    have hdir := h e (List.mem_cons_self e q)
    simp only [partitioned, hdir, if_true]
    rw [List.all_eq_true]
    intro x hx
    exact h x (List.mem_cons_of_mem e hx)

theorem partitioned_iff (q : List (File × Nat)) :
    partitioned q = true ↔ ∃ a b, q = a ++ b
      ∧ (∀ e ∈ a, e.1.file_type.is_dir = false) ∧ (∀ e ∈ b, e.1.file_type.is_dir = true) := by
  induction q with
  | nil =>
    constructor
    · intro _
      exact ⟨[], [], rfl, by simp, by simp⟩
    · intro _
      rfl
  | cons e q ih =>
    constructor
    · intro h
      by_cases hdir : e.1.file_type.is_dir = true
      · simp only [partitioned, hdir, if_true] at h
        refine ⟨[], e :: q, rfl, by simp, ?_⟩
        intro x hx
        rcases List.mem_cons.mp hx with h2 | h2
        · subst h2
          exact hdir
        · rw [List.all_eq_true] at h
          exact h x h2
      · have hdirf : e.1.file_type.is_dir = false := by
          cases hb : e.1.file_type.is_dir
          · rfl
          · exact absurd hb hdir
        simp only [partitioned, hdirf, Bool.false_eq_true, if_false] at h
        obtain ⟨a, b, heq, ha, hb⟩ := ih.mp h
        refine ⟨e :: a, b, by rw [heq, List.cons_append], ?_, hb⟩
        intro x hx
        rcases List.mem_cons.mp hx with h2 | h2
        · subst h2
          exact hdirf
        · exact ha x h2
    · rintro ⟨a, b, heq, ha, hb⟩
      cases a with
      | nil =>
        rw [List.nil_append] at heq
        rw [heq]
        exact partitioned_of_all_dir b hb
      | cons x a2 =>
        rw [List.cons_append] at heq
        obtain ⟨hex, hq⟩ := List.cons.inj heq
        have hxf : e.1.file_type.is_dir = false := hex ▸ ha x (List.mem_cons_self x a2)
        simp only [partitioned, hxf, Bool.false_eq_true, if_false]
        exact ih.mpr ⟨a2, b, hq, fun y hy => ha y (List.mem_cons_of_mem x hy), hb⟩

theorem partitioned_tail {e : File × Nat} {q : List (File × Nat)}
    (h : partitioned (e :: q) = true) : partitioned q = true := by
  by_cases hdir : e.1.file_type.is_dir = true
  · simp only [partitioned, hdir, if_true] at h
    rw [List.all_eq_true] at h
    exact partitioned_of_all_dir q (fun x hx => h x hx)
  · have hdirf : e.1.file_type.is_dir = false := by
      cases hb : e.1.file_type.is_dir
      · rfl
      · exact absurd hb hdir
    simp only [partitioned, hdirf, Bool.false_eq_true, if_false] at h
    exact h

theorem partitioned_dropLast {q : List (File × Nat)} (h : partitioned q = true) :
    partitioned q.dropLast = true := by
  obtain ⟨a, b, heq, ha, hb⟩ := (partitioned_iff q).mp h
  apply (partitioned_iff _).mpr
  cases hb0 : b with
  | nil =>
    subst hb0
    rw [heq, List.append_nil]
    exact ⟨a.dropLast, [], (List.append_nil _).symm,
      fun e he => ha e (List.mem_of_mem_dropLast he), by simp⟩
  | cons b0 bs =>
    rw [heq, hb0, List.dropLast_append_of_ne_nil _ (List.cons_ne_nil b0 bs)]
    refine ⟨a, (b0 :: bs).dropLast, rfl, ha, ?_⟩
    intro e he
    have hmem : e ∈ b0 :: bs := List.mem_of_mem_dropLast he
    rw [hb0] at hb
    exact hb e hmem

theorem partitioned_expandChildren {q : List (File × Nat)} (hq : partitioned q = true)
    (d : Nat) (t : FileType) : partitioned (expandChildren q d t) = true := by
  cases t with
  | regular => exact hq
  | symlink => exact hq
  | directory cs =>
    rw [expandChildren_directory]
    obtain ⟨a, b, heq, ha, hb⟩ := (partitioned_iff q).mp hq
    apply (partitioned_iff _).mpr
    refine ⟨(cs.filter (fun c => !c.file_type.is_dir)).map (fun c => (c, d + 1)) ++ a,
      b ++ ((cs.filter (fun c => c.file_type.is_dir)).map (fun c => (c, d + 1))).reverse,
      by rw [heq]; simp [List.append_assoc], ?_, ?_⟩
    · intro e he
      rcases List.mem_append.mp he with h2 | h2
      · obtain ⟨c, hc, hce⟩ := List.mem_map.mp h2
        have hcf := (List.mem_filter.mp hc).2
        rw [← hce]
        simpa using hcf
      · exact ha e h2
    · intro e he
      rcases List.mem_append.mp he with h2 | h2
      · exact hb e h2
      · rw [List.mem_reverse] at h2
        obtain ⟨c, hc, hce⟩ := List.mem_map.mp h2
        rw [← hce]
        exact (List.mem_filter.mp hc).2

theorem popExpand_partitioned {it : FilesIter} {e : File × Nat} {it2 : FilesIter}
    (hp : partitioned it.file_deque = true) (h : popExpand it = some (e, it2)) :
    partitioned it2.file_deque = true := by
  cases hd : it.file_deque with
  | nil => simp [popExpand, hd] at h
  | cons a rest =>
    rw [hd] at hp
    simp only [popExpand, hd] at h
    split at h
    · obtain ⟨he, h2⟩ := Prod.mk.inj (Option.some.inj h)
      have hdq : it2.file_deque = expandChildren rest a.2 a.1.file_type := by
        rw [← h2]
      rw [hdq]
      exact partitioned_expandChildren (partitioned_tail hp) _ _
    · obtain ⟨he, h2⟩ := Prod.mk.inj (Option.some.inj h)
      have hdq : it2.file_deque = expandChildren ((a :: rest).dropLast)
          ((a :: rest).getLast (List.cons_ne_nil a rest)).2
          ((a :: rest).getLast (List.cons_ne_nil a rest)).1.file_type := by
        rw [← h2]
      rw [hdq]
      exact partitioned_expandChildren (partitioned_dropLast hp) _ _

theorem next_partitioned : ∀ n it, closureSize it = n → partitioned it.file_deque = true →
    partitioned ((it.next).2).file_deque = true := by
  intro n
  induction n using Nat.strong_induction_on with
  | _ n ih =>
    intro it hn hp
    cases h : popExpand it with
    | none =>
      rw [next_eq_none h]
      exact hp
    | some pr =>
      obtain ⟨⟨file, depth⟩, it2⟩ := pr
      have hsz := popExpand_closureSize h
      have hp2 := popExpand_partitioned hp h
      rw [next_eq_some h]
      by_cases hds : depthSkip it depth
      · rw [if_pos hds]
        exact ih (closureSize it2) (by omega) it2 rfl hp2
      · rw [if_neg hds]
        by_cases hks : kindSkip it file = true
        · rw [if_pos hks]
          exact ih (closureSize it2) (by omega) it2 rfl hp2
        · rw [if_neg hks]
          exact hp2

theorem pullN_partitioned (k : Nat) :
    ∀ it : FilesIter, partitioned it.file_deque = true →
      partitioned ((pullN k it).file_deque) = true := by
  induction k with
  | zero => intro it hp; exact hp
  | succ k ih =>
    intro it hp
    show partitioned ((pullN k (it.next).2).file_deque) = true
    exact ih (it.next).2 (next_partitioned (closureSize it) it rfl hp)

theorem partitioned_back_iff {q : List (File × Nat)} (h : partitioned q = true) :
    (∃ e, q.getLast? = some e ∧ e.1.file_type.is_dir = true)
      ↔ ∃ e ∈ q, e.1.file_type.is_dir = true := by
  obtain ⟨a, b, heq, ha, hb⟩ := (partitioned_iff _).mp h
  cases hb0 : b with
  | nil =>
    subst hb0
    rw [heq, List.append_nil]
    constructor
    · rintro ⟨e, hlast, hdir⟩
      have hmem : e ∈ a := List.mem_of_mem_getLast? hlast
      rw [ha e hmem] at hdir
      exact absurd hdir (by simp)
    · rintro ⟨e, hmem, hdir⟩
      rw [ha e hmem] at hdir
      exact absurd hdir (by simp)
  | cons b0 bs =>
    subst hb0
    have hne : (b0 :: bs) ≠ [] := List.cons_ne_nil b0 bs
    have hlast : q.getLast? = (b0 :: bs).getLast? := by
      rw [heq, List.getLast?_append_of_ne_nil _ hne]
    have hlastval : (b0 :: bs).getLast? = some ((b0 :: bs).getLast hne) :=
      List.getLast?_eq_getLast _ hne
    constructor
    · rintro ⟨e, hl, hdir⟩
      exact ⟨b0, by rw [heq]; exact List.mem_append_right a (List.mem_cons_self b0 bs),
        hb b0 (List.mem_cons_self b0 bs)⟩
    · rintro ⟨e, hmem, hdir⟩
      refine ⟨(b0 :: bs).getLast hne, by rw [hlast, hlastval], ?_⟩
      exact hb _ (List.getLast_mem hne)

/-- C10: in every engine state reachable from the seeded root by pulls, under
any configuration, the work list keeps all non-directory entries in front of
all directory entries; consequently its back entry is a directory exactly
when the work list contains any directory, which is the condition the
pop-side decision of `FilesIter::next` relies on. -/
theorem c10_partition_invariant (root : File) (fbd sd srf ss : Bool) (mn mx k : Nat) :
    partitioned ((pullN k (seededIter root fbd sd srf ss mn mx)).file_deque) = true
    ∧ ((∃ e, ((pullN k (seededIter root fbd sd srf ss mn mx)).file_deque).getLast? = some e
          ∧ e.1.file_type.is_dir = true)
      ↔ ∃ e ∈ (pullN k (seededIter root fbd sd srf ss mn mx)).file_deque,
          e.1.file_type.is_dir = true) := by
  have hp0 : partitioned ((seededIter root fbd sd srf ss mn mx).file_deque) = true := by
    show partitioned [(root, 0)] = true
    by_cases hdir : root.file_type.is_dir = true
    · simp [partitioned, hdir]
    · have hdirf : root.file_type.is_dir = false := by
        cases hb : root.file_type.is_dir
        · rfl
        · exact absurd hb hdir
      simp [partitioned, hdirf]
  have hp := pullN_partitioned k _ hp0
  exact ⟨hp, partitioned_back_iff hp⟩

theorem paths_next_flag (p : PathsIter) :
    ((p.next).2).show_full_relative_path = p.show_full_relative_path := by
  rcases hn : p.file_iter.next with ⟨r, it2⟩
  cases r with
  | none => simp [PathsIter.next, hn]
  | some f =>
    by_cases hflag : p.show_full_relative_path = true
    · simp [PathsIter.next, hn, hflag]
    · simp [PathsIter.next, hn, hflag]

theorem paths_next_none {p : PathsIter} (h : p.show_full_relative_path = false) :
    (p.next).1 = none := by
  rcases hn : p.file_iter.next with ⟨r, it2⟩
  cases r with
  | none => simp [PathsIter.next, hn]
  | some f => simp [PathsIter.next, hn, h]

theorem pathsPullN_flag_stable : ∀ k (p : PathsIter),
    ((pathsPullN k p).show_full_relative_path) = p.show_full_relative_path := by
  intro k
  induction k with
  | zero => intro p; rfl
  | succ k ih =>
    intro p
    show ((pathsPullN k (p.next).2).show_full_relative_path) = _
    rw [ih (p.next).2, paths_next_flag p]

/-- C7: once `show_full_relative_path` is false, the path projection
produces no value on any pull, starting from the very first one: the pull
after any number of preceding pulls yields nothing. -/
theorem c7_hidden_path_mode_yields_nothing (p : PathsIter)
    (h : p.show_full_relative_path = false) :
    ∀ k, ((pathsPullN k p).next).1 = none := by
  intro k
  apply paths_next_none
  rw [pathsPullN_flag_stable k p]
  exact h

/-- C7 witness: over the canonical fixture with the flag disabled, the pull
after two preceding pulls yields nothing. -/
theorem c7_hidden_path_mode_yields_nothing_witness :
    ((pathsPullN 2 hiddenPathsIter).next).1 = none :=
  c7_hidden_path_mode_yields_nothing hiddenPathsIter rfl 2

theorem paths_next_some {p : PathsIter} {s : String} {p2 : PathsIter}
    (h : p.next = (some s, p2)) :
    closureSize p2.file_iter < closureSize p.file_iter := by
  rcases hn : p.file_iter.next with ⟨r, it2⟩
  cases r with
  | none =>
    have hnext : (p.next).1 = none := by
      simp [PathsIter.next, hn]
    rw [h] at hnext
    exact absurd hnext (by simp)
  | some f =>
    by_cases hflag : p.show_full_relative_path = true
    · have hnext : p.next = (some f.path,
          { current_path := p.current_path, file_iter := it2, show_full_relative_path := p.show_full_relative_path }) := by
        simp [PathsIter.next, hn, hflag]
      rw [hnext] at h
      obtain ⟨h1, h2⟩ := Prod.mk.inj h
      rw [← h2]
      exact next_some_closureSize hn
    · have hnext : (p.next).1 = none := by
        simp [PathsIter.next, hn, hflag]
      rw [h] at hnext
      exact absurd hnext (by simp)

theorem pathsRunF_irrel : ∀ n fuel (p : PathsIter), closureSize p.file_iter = n →
    n ≤ fuel → pathsRunF fuel p = pathsRunF n p := by
  intro n
  induction n using Nat.strong_induction_on with
  | _ n ih =>
    intro fuel p hn hle
    rcases hnx : p.next with ⟨r, p2⟩
    cases r with
    | none =>
      cases fuel with
      | zero =>
        cases n with
        | zero => rfl
        | succ m => omega
      | succ fuel2 =>
        cases n with
        | zero => simp [pathsRunF, hnx]
        | succ m => simp [pathsRunF, hnx]
    | some s =>
      have hlt : closureSize p2.file_iter < closureSize p.file_iter := paths_next_some hnx
      cases fuel with
      | zero =>
        cases n with
        | zero =>
          exfalso
          omega
        | succ m => omega
      | succ fuel2 =>
        cases n with
        | zero =>
          exfalso
          omega
        | succ m =>
          have g1 : pathsRunF (fuel2 + 1) p = s :: pathsRunF fuel2 p2 := by
            show (match p.next with
              | (none, _) => []
              | (some s, p2) => s :: pathsRunF fuel2 p2) = _
            rw [hnx]
          have g2 : pathsRunF (m + 1) p = s :: pathsRunF m p2 := by
            show (match p.next with
              | (none, _) => []
              | (some s, p2) => s :: pathsRunF m p2) = _
            rw [hnx]
          have e1 : pathsRunF fuel2 p2 = pathsRunF (closureSize p2.file_iter) p2 :=
            ih (closureSize p2.file_iter) (by omega) fuel2 p2 rfl (by omega)
          have e2 : pathsRunF m p2 = pathsRunF (closureSize p2.file_iter) p2 :=
            ih (closureSize p2.file_iter) (by omega) m p2 rfl (by omega)
          rw [g1, g2, e1, e2]

theorem pathsRun_next (p : PathsIter) :
    pathsRun p = match p.next with
      | (none, _) => []
      | (some s, p2) => s :: pathsRun p2 := by
  rcases hnx : p.next with ⟨r, p2⟩
  cases r with
  | none =>
    cases hcs : closureSize p.file_iter with
    | zero => simp [pathsRun, hcs, pathsRunF]
    | succ m => simp [pathsRun, hcs, pathsRunF, hnx]
  | some s =>
    have hlt : closureSize p2.file_iter < closureSize p.file_iter := paths_next_some hnx
    cases hcs : closureSize p.file_iter with
    | zero => omega
    | succ m =>
      have g1 : pathsRunF (m + 1) p = s :: pathsRunF m p2 := by
        show (match p.next with
          | (none, _) => []
          | (some s, p2) => s :: pathsRunF m p2) = _
        rw [hnx]
      have e1 : pathsRunF m p2 = pathsRunF (closureSize p2.file_iter) p2 :=
        pathsRunF_irrel (closureSize p2.file_iter) m p2 rfl (by omega)
      show pathsRunF (closureSize p.file_iter) p = _
      rw [hcs, g1, e1]
      rfl

theorem paths_parity_aux : ∀ n it, closureSize it = n → ∀ cp,
    pathsRun { current_path := cp, file_iter := it, show_full_relative_path := true }
      = (run it).map File.path := by
  intro n
  induction n using Nat.strong_induction_on with
  | _ n ih =>
    intro it hn cp
    rw [pathsRun_next, run_next n it hn]
    rcases hnx : it.next with ⟨r, it2⟩
    cases r with
    | none =>
      simp [PathsIter.next, hnx]
    | some f =>
      have hpn : PathsIter.next
          { current_path := cp, file_iter := it, show_full_relative_path := true }
          = (some f.path,
            { current_path := cp, file_iter := it2, show_full_relative_path := true }) := by
        simp [PathsIter.next, hnx]
      rw [hpn]
      have hlt : closureSize it2 < closureSize it := next_some_closureSize hnx
      have hrec := ih (closureSize it2) (by omega) it2 rfl cp
      show f.path :: pathsRun
          { current_path := cp, file_iter := it2, show_full_relative_path := true }
          = List.map File.path (f :: run it2)
      rw [hrec, List.map_cons]

/-- C6: the path projection obtained by `paths()` (whose
`show_full_relative_path` flag is true) produces exactly the stored `path`
field of each node the wrapped engine produces, in the same order and with
the same length: its output is the engine's output mapped through `path`. -/
theorem c6_paths_engine_parity (it : FilesIter) :
    pathsRun it.paths = (run it).map File.path :=
  paths_parity_aux (closureSize it) it rfl ""

theorem popExpandE_eq (it : FilesIter) : popExpandE it = Except.ok (popExpand it) := by
  cases hd : it.file_deque with
  | nil => simp [popExpandE, popExpand, hd]
  | cons a rest =>
    have hlast : (a :: rest).getLast? = some ((a :: rest).getLast (List.cons_ne_nil a rest)) :=
      List.getLast?_eq_getLast _ _
    by_cases hb : (it.files_before_directories
        || !((a :: rest).getLast (List.cons_ne_nil a rest)).1.file_type.is_dir) = true
    · simp [popExpandE, popExpand, hd, hlast, hb]
    · simp [popExpandE, popExpand, hd, hlast, hb]

theorem nextFE_eq : ∀ fuel it, nextFE fuel it = Except.ok (nextF fuel it) := by
  intro fuel
  induction fuel with
  | zero => intro it; rfl
  | succ fuel ih =>
    intro it
    show (match popExpandE it with
      | Except.error e => Except.error e
      | Except.ok none => Except.ok (none, it)
      | Except.ok (some ((file, depth), it2)) =>
        if depthSkip it depth then nextFE fuel it2
        else if kindSkip it file then nextFE fuel it2
        else Except.ok (some file, it2)) = _
    rw [popExpandE_eq]
    cases h : popExpand it with
    | none =>
      have hr : nextF (fuel + 1) it = (none, it) := by
        show (match popExpand it with
          | none => (none, it)
          | some ((file, depth), it2) =>
            if depthSkip it depth then nextF fuel it2
            else if kindSkip it file then nextF fuel it2
            else (some file, it2)) = _
        rw [h]
      rw [hr]
    | some pr =>
      obtain ⟨⟨file, depth⟩, it2⟩ := pr
      have hr : nextF (fuel + 1) it = (if depthSkip it depth then nextF fuel it2
          else if kindSkip it file then nextF fuel it2 else (some file, it2)) := by
        show (match popExpand it with
          | none => (none, it)
          | some ((file, depth), it2) =>
            if depthSkip it depth then nextF fuel it2
            else if kindSkip it file then nextF fuel it2
            else (some file, it2)) = _
        rw [h]
      rw [hr]
      show (if depthSkip it depth then nextFE fuel it2
        else if kindSkip it file then nextFE fuel it2
        else Except.ok (some file, it2))
        = Except.ok (if depthSkip it depth then nextF fuel it2
        else if kindSkip it file then nextF fuel it2
        else (some file, it2))
      by_cases hds : depthSkip it depth
      · rw [if_pos hds, if_pos hds]
        exact ih it2
      · rw [if_neg hds, if_neg hds]
        by_cases hks : kindSkip it file = true
        · rw [if_pos hks, if_pos hks]
          exact ih it2
        · rw [if_neg hks, if_neg hks]

/-- C8: the engine and the path projection are infallible.  The fallible
renderings of the pop-and-expand step and of the whole pull body, in which
each `unwrap` of the source is an explicit error, never return an error:
they always return `ok` of the total functions' results, because the two
partial operations (inspecting the back entry, removing an entry) are only
reached when the work list is non-empty.  A pull therefore either yields a
value or signals clean exhaustion by absence. -/
theorem c8_infallible (it : FilesIter) (fuel : Nat) :
    popExpandE it = Except.ok (popExpand it)
    ∧ nextFE fuel it = Except.ok (nextF fuel it) :=
  ⟨popExpandE_eq it, nextFE_eq fuel it⟩

/-- C2 (divergence witness): the source's kind filter
(`src/iter.rs` lines 121-124) repeats the `skip_dirs && is_dir()` disjunct
and never consults `skip_symlinks`, so a traversal with
`skip_symlinks = true` over a tree whose only node is a symlink still emits
that symlink instead of discarding it; `kindSkip` evaluates to false on it. -/
theorem c2_skip_symlinks_unwired :
    kindSkip ((File.files loneSymlink).withSkipSymlinks true) loneSymlink = false
    ∧ run ((File.files loneSymlink).withSkipSymlinks true) = [loneSymlink] :=
  ⟨rfl, rfl⟩

/-- C3: on the canonical fixture, default order yields
`.config, i3, dir, innerfile1, innerfile2, file1, file2, file3, outerfile1,
outerfile2`, and files-before-directories order yields
`.config, outerfile1, outerfile2, i3, file1, file2, file3, dir, innerfile1,
innerfile2`, exactly as the repository's test asserts. -/
theorem c3_fixture_sequences :
    run (File.files dotConfig)
      = [dotConfig, i3, dir, innerfile1, innerfile2, file1, file2, file3,
        outerfile1, outerfile2]
    ∧ run ((File.files dotConfig).withFilesBeforeDirectories true)
      = [dotConfig, outerfile1, outerfile2, i3, file1, file2, file3, dir,
        innerfile1, innerfile2] :=
  ⟨rfl, rfl⟩

end FileStructure
